import Mathlib

/-!
Verification of the protocol-decoding core of the pytao client
(src/pytao/tao.py and src/pytao/capture.py), as a shallow embedding.

Decoded field values are modelled by `Val` (Python float is modelled as an
exact rational, which is faithful for the decimal literals the protocol
carries).  Python dicts that preserve insertion order are modelled as
association lists (`PMap`).  Warnings emitted through `logging` are collected
in a list; Python exceptions (AttributeError, ValueError, TypeError,
IndexError, KeyError) are modelled as `Except.error ()`.
-/

/-- Decidable equality for `Except`, used to evaluate the embedded decoders
on concrete protocol inputs. -/
instance {ε α : Type} [DecidableEq ε] [DecidableEq α] : DecidableEq (Except ε α) := fun x y =>
  match x, y with
  | .ok a, .ok b =>
      if h : a = b then isTrue (by rw [h])
      else isFalse (by intro hc; cases hc; exact h rfl)
  | .error a, .error b =>
      if h : a = b then isTrue (by rw [h])
      else isFalse (by intro hc; cases hc; exact h rfl)
  | .ok _, .error _ => isFalse (by intro hc; cases hc)
  | .error _, .ok _ => isFalse (by intro hc; cases hc)

/-- A decoded field value: the codomain of `Tao._parse_dict_item`. -/
inductive Val where
  | str (s : String)
  | int (n : Int)
  | real (q : ℚ)
  | bool (b : Bool)
deriving DecidableEq, Repr

/-- An entry of the property map built by `_convert_arrays`: either a scalar
decoded value or an accumulated array of values. -/
inductive Entry where
  | scalar (v : Val)
  | arr (l : List Val)
deriving DecidableEq, Repr

/-- An insertion-ordered string-keyed map (Python `OrderedDict`/3.6+ `dict`),
modelled as an association list without duplicate keys in normal use. -/
abbrev PMap := List (String × Entry)

/-- Lookup in the ordered map (`result[key]` / `result.get`). -/
def pmLookup : PMap → String → Option Entry
  | [], _ => none
  | (k, e) :: rest, key => if k = key then some e else pmLookup rest key

/-- Assignment `result[key] = e`: update in place when the key exists
(Python dicts keep the original insertion position), append otherwise. -/
def pmInsert : PMap → String → Entry → PMap
  | [], key, e => [(key, e)]
  | (k, e0) :: rest, key, e =>
      if k = key then (k, e) :: rest else (k, e0) :: pmInsert rest key e

/-- `result.pop(key, default)`: remove the key, returning its value when
present. -/
def pmPop : PMap → String → Option Entry × PMap
  | [], _ => (none, [])
  | (k, e) :: rest, key =>
      if k = key then (some e, rest)
      else
        let (r, m) := pmPop rest key
        (r, (k, e) :: m)

/-- Keys of the association list. -/
def pmKeys (m : PMap) : List String := m.map Prod.fst

/-- Ordered-set insertion used to model `arrays.add(name)` (the Python code
uses a `set`; we determinize its iteration order to insertion order, which
does not affect the final map contents or the set of warnings). -/
def addSet (l : List String) (x : String) : List String :=
  if x ∈ l then l else l ++ [x]

/-- Value of a digit list, most significant first (`int` on a digit string). -/
def digitsToNat (ds : List Char) : Nat :=
  ds.foldl (fun a c => a * 10 + (c.toNat - 48)) 0

/-- Match of the regular expression `RE_ARRAY = ^(.*)\[(\d+)\]$` against a
key: the key must end in a bracketed nonempty run of ASCII digits; the name
is everything before that final bracket group. -/
def parseArrayKey (key : String) : Option (String × Nat) :=
  match key.data.reverse with
  | ']' :: rest =>
      let ds := rest.takeWhile Char.isDigit
      match rest.drop ds.length with
      | '[' :: pre =>
          if ds = [] then none
          else some (String.mk pre.reverse, digitsToNat ds.reverse)
      | _ => none
  | _ => none

/-- The two classes of consistency warning `_convert_arrays` can log. -/
inductive Warning where
  | indexOrder (name : String) (got : Nat) (expected : Nat)
  | lengthMismatch (name : String) (count : Int) (got : Nat)
deriving DecidableEq, Repr

/-- State threaded through the scan loop of `_convert_arrays`: the map under
construction, the set of array names seen, and the warnings logged so far. -/
structure FoldSt where
  result : PMap
  arrays : List String
  warns : List Warning
deriving DecidableEq, Repr

/-- One iteration of the scan loop of `_convert_arrays` (tao.py:432-448).
A bracketed key appends to the per-name accumulator; `l.append` on an entry
that is not a list raises (AttributeError), modelled as `.error`.  The index
of the first value appended for a name is recorded but never compared
(`i0` is dead); from the second value on, an index different from the new
accumulated length logs an index-order warning. -/
def scanStep (st : FoldSt) (key : String) (val : Val) : Except Unit FoldSt :=
  match parseArrayKey key with
  | some (name, index) =>
      match pmLookup st.result name with
      | some (Entry.scalar _) => .error ()
      | some (Entry.arr l) =>
          let l' := l ++ [val]
          let warns' :=
            if l'.length = 1 then st.warns
            else if index ≠ l'.length then
              st.warns ++ [Warning.indexOrder name index l'.length]
            else st.warns
          .ok ⟨pmInsert st.result name (Entry.arr l'), addSet st.arrays name, warns'⟩
      | none =>
          .ok ⟨pmInsert st.result name (Entry.arr [val]), addSet st.arrays name, st.warns⟩
  | none => .ok { st with result := pmInsert st.result key (Entry.scalar val) }

/-- The scan loop of `_convert_arrays` over all decoded items. -/
def scanItems : FoldSt → List (String × Val) → Except Unit FoldSt
  | st, [] => .ok st
  | st, (k, v) :: rest =>
      match scanStep st k v with
      | .ok st' => scanItems st' rest
      | .error e => .error e

/-- The sibling scalar key advertising an array's length. -/
def numKey (name : String) : String := "num_" ++ name ++ "s"

/-- Python `str.strip()`: drop leading and trailing whitespace. -/
def pyStrip (s : String) : List Char :=
  ((s.data.dropWhile Char.isWhitespace).reverse.dropWhile Char.isWhitespace).reverse

/-- Python `str.lower()`, for the ASCII names this protocol carries. -/
def pyLower (s : String) : String :=
  String.mk (s.data.map fun c => if 'A' ≤ c ∧ c ≤ 'Z' then Char.ofNat (c.toNat + 32) else c)

/-- Python `int(s)` on a string: surrounding whitespace stripped, optional
sign, then a nonempty run of decimal digits; anything else raises
ValueError (`none`). -/
def pyParseInt (s : String) : Option Int :=
  match pyStrip s with
  | '+' :: ds =>
      if ds ≠ [] ∧ ds.all Char.isDigit then some (digitsToNat ds) else none
  | '-' :: ds =>
      if ds ≠ [] ∧ ds.all Char.isDigit then some (-(digitsToNat ds : Int)) else none
  | ds =>
      if ds ≠ [] ∧ ds.all Char.isDigit then some (digitsToNat ds) else none

/-- Python `float(s)`: stripped, optional sign, a decimal mantissa with at
least one digit, and an optional exponent part.  The float is modelled as
the exact rational value of the literal (the special spellings inf/nan do
not occur in this protocol and are left out of the model). -/
def pyParseFloat (s : String) : Option ℚ :=
  let cs := pyStrip s
  let sgn : Int := match cs with | '-' :: _ => -1 | _ => 1
  let cs1 := match cs with | '+' :: r => r | '-' :: r => r | r => r
  let ds1 := cs1.takeWhile Char.isDigit
  let cs2 := cs1.drop ds1.length
  let ds2 := match cs2 with | '.' :: r => r.takeWhile Char.isDigit | _ => []
  let cs3 := match cs2 with | '.' :: r => r.drop ds2.length | r => r
  if ds1 = [] ∧ ds2 = [] then none
  else
    let mkVal : Int → Option ℚ := fun ex =>
      some (Rat.divInt
        (sgn * (digitsToNat (ds1 ++ ds2) : Int) * ((10 ^ ex.toNat : Nat) : Int))
        (((10 ^ ds2.length : Nat) * (10 ^ (-ex).toNat : Nat) : Nat) : Int))
    match cs3 with
    | [] => mkVal 0
    | c :: r =>
        if c = 'e' ∨ c = 'E' then
          let esgn : Int := match r with | '-' :: _ => -1 | _ => 1
          let r1 := match r with | '+' :: t => t | '-' :: t => t | t => t
          let eds := r1.takeWhile Char.isDigit
          if eds = [] ∨ r1.drop eds.length ≠ [] then none
          else mkVal (esgn * (digitsToNat eds : Int))
        else none

/-- Python `int(x)` on a stored entry: ints pass through, bools become 0/1,
strings are parsed as by `int(s)`, floats truncate toward zero; `int` of a
list raises TypeError. -/
def pyInt : Entry → Except Unit Int
  | Entry.scalar (Val.int n) => .ok n
  | Entry.scalar (Val.bool b) => .ok (if b then 1 else 0)
  | Entry.scalar (Val.str s) =>
      match pyParseInt s with
      | some n => .ok n
      | none => .error ()
  | Entry.scalar (Val.real q) => .ok (Int.tdiv q.num q.den)
  | Entry.arr _ => .error ()

/-- Python `len(x)` on a stored entry: defined for lists and strings, raises
TypeError otherwise. -/
def pyLen : Entry → Except Unit Nat
  | Entry.arr l => .ok l.length
  | Entry.scalar (Val.str s) => .ok s.length
  | _ => .error ()

/-- The post-scan loop of `_convert_arrays` (tao.py:449-456): for every
accumulated array name pop the advertised-count sibling (`0` when missing),
and log a length warning when the advertised count differs from the
reconstructed length.  `len(result[name])` on a missing key (KeyError) is
modelled as `.error`. -/
def finalize : PMap → List String → List Warning → Except Unit (PMap × List Warning)
  | m, [], ws => .ok (m, ws)
  | m, name :: rest, ws =>
      let (sib, m') := pmPop m (numKey name)
      match (match sib with | none => Except.ok (0 : Int) | some e => pyInt e) with
      | .error e => .error e
      | .ok count =>
          match (match pmLookup m' name with | none => Except.error () | some e => pyLen e) with
          | .error e => .error e
          | .ok len =>
              let ws' :=
                if count ≠ (len : Int) then ws ++ [Warning.lengthMismatch name count len]
                else ws
              finalize m' rest ws'

/-- `_convert_arrays` (tao.py:411-457): scan the decoded pairs, then check
and strip the advertised-count siblings.  Returns the property map together
with the list of consistency warnings logged along the way. -/
def convert_arrays (items : List (String × Val)) : Except Unit (PMap × List Warning) :=
  match scanItems ⟨[], [], []⟩ items with
  | .error e => .error e
  | .ok st => finalize st.result st.arrays st.warns

/-- The scan loop of `_convert_arrays` with the warning machinery stripped:
used to show the returned map never depends on whether inconsistencies were
detected (the logged warning is the only effect of a mismatch). -/
def scanPlain : PMap → List String → List (String × Val) → Except Unit (PMap × List String)
  | m, ar, [] => .ok (m, ar)
  | m, ar, (k, v) :: rest =>
      match parseArrayKey k with
      | some (name, _) =>
          match pmLookup m name with
          | some (Entry.scalar _) => .error ()
          | some (Entry.arr l) =>
              scanPlain (pmInsert m name (Entry.arr (l ++ [v]))) (addSet ar name) rest
          | none => scanPlain (pmInsert m name (Entry.arr [v])) (addSet ar name) rest
      | none => scanPlain (pmInsert m k (Entry.scalar v)) ar rest

/-- The post-scan loop with the warning machinery stripped. -/
def finalizePlain : PMap → List String → Except Unit PMap
  | m, [] => .ok m
  | m, name :: rest =>
      let (sib, m') := pmPop m (numKey name)
      match (match sib with | none => Except.ok (0 : Int) | some e => pyInt e) with
      | .error e => .error e
      | .ok _ =>
          match (match pmLookup m' name with | none => Except.error () | some e => pyLen e) with
          | .error e => .error e
          | .ok _ => finalizePlain m' rest

/-- `_convert_arrays` with the warning machinery stripped. -/
def convert_arrays_plain (items : List (String × Val)) : Except Unit PMap :=
  match scanPlain [] [] items with
  | .error e => .error e
  | .ok (m, ar) => finalizePlain m ar

/-- Bracketed occurrences of a given array name among the decoded pairs, in
encounter order, as (index, value). -/
def bracketOccs (items : List (String × Val)) (name : String) : List (Nat × Val) :=
  items.filterMap fun kv =>
    match parseArrayKey kv.1 with
    | some (n, i) => if n = name then some (i, kv.2) else none
    | none => none

/-- The sequence of bracket indices carried by a name's occurrences. -/
def bracketIdxs (items : List (String × Val)) (name : String) : List Nat :=
  (bracketOccs items name).map Prod.fst

/-- `Tao._parse_dict_item` (tao.py:376-390): decode one semicolon-split
record.  `fields[:2]` requires at least two fields; the value branches read
`fields[3]`; the ENUM branch goes through `_create_enum_value`, which
returns the raw string; an unrecognized kind tag falls back to `fields[1]`
(the kind tag itself).  The returned name is lower-cased. -/
def parse_dict_item (fields : List String) : Except Unit (String × Val) :=
  match fields with
  | name :: kind :: rest =>
      let val3 : (String → Except Unit (String × Val)) → Except Unit (String × Val) :=
        fun f => match rest.get? 1 with
          | some v => f v
          | none => .error ()
      if kind = "STR" then val3 fun v => .ok (pyLower name, Val.str v)
      else if kind = "INT" then val3 fun v =>
        match pyParseInt v with
        | some n => .ok (pyLower name, Val.int n)
        | none => .error ()
      else if kind = "REAL" then val3 fun v =>
        match pyParseFloat v with
        | some q => .ok (pyLower name, Val.real q)
        | none => .error ()
      else if kind = "LOGIC" then val3 fun v => .ok (pyLower name, Val.bool (v == "T"))
      else if kind = "ENUM" then val3 fun v => .ok (pyLower name, Val.str v)
      else .ok (pyLower name, Val.str kind)
  | _ => .error ()

/-- `Tao._parse_dict` (tao.py:367-374): empty input or an `INVALID` sentinel
in the first field of the first record yields an empty ordered map;
otherwise every record is decoded and the result folded by
`_convert_arrays`.  `data[0][0]` on an empty first record raises. -/
def parse_dict (data : List (List String)) : Except Unit (PMap × List Warning) :=
  match data with
  | [] => .ok ([], [])
  | row :: _ =>
      match row with
      | [] => .error ()
      | f :: _ =>
          if f = "INVALID" then .ok ([], [])
          else
            match data.mapM parse_dict_item with
            | .ok items => convert_arrays items
            | .error e => .error e

/-- `_parse_list` (tao.py:460-463): empty input or the `INVALID` sentinel
yields the empty list; otherwise each record is unpacked as exactly an
(index, value) pair and the values are returned in order. -/
def parse_list (data : List (List String)) : Except Unit (List String) :=
  match data with
  | [] => .ok []
  | row :: _ =>
      match row with
      | [] => .error ()
      | f :: _ =>
          if f = "INVALID" then .ok []
          else data.mapM fun r =>
            match r with
            | [_, v] => Except.ok v
            | _ => Except.error ()

/-- A numeric matrix as produced by `_parse_array`: the advertised numpy
shape together with the parsed rows (floats modelled as exact rationals). -/
structure NMatrix where
  shape : Nat × Nat
  rows : List (List ℚ)
deriving DecidableEq, Repr

/-- `_parse_array` (tao.py:471-475): empty input or the `INVALID` sentinel
yields `np.empty(shape)` — no rows, the caller-supplied default shape (the
call sites pass `(0, 0)` by default).  Otherwise every field of every row is
parsed as a float; rows of unequal width do not form a numeric matrix. -/
def parse_array (data : List (List String)) (shape : Nat × Nat) : Except Unit NMatrix :=
  match data with
  | [] => .ok ⟨shape, []⟩
  | row :: _ =>
      match row with
      | [] => .error ()
      | f :: _ =>
          if f = "INVALID" then .ok ⟨shape, []⟩
          else
            match data.mapM (fun r => r.mapM fun s =>
                match pyParseFloat s with
                | some q => Except.ok q
                | none => Except.error ()) with
            | .error e => .error e
            | .ok rows =>
                if rows.all fun r => r.length = row.length then
                  .ok ⟨(rows.length, row.length), rows⟩
                else .error ()

/-- A command argument as passed to `join_args` (tao.py:86-87): Python
floats are modelled as exact rationals, everything else keeps its default
string form. -/
inductive Arg where
  | float (q : ℚ)
  | int (n : Int)
  | str (s : String)
deriving DecidableEq, Repr

/-- Exactly `k` decimal digits of `m`, least significant last, zero padded
on the left (used for the fractional part of the scientific mantissa). -/
def digitsFix : Nat → Nat → List Nat
  | 0, _ => []
  | k+1, m => digitsFix k (m / 10) ++ [m % 10]

/-- Fueled decimal exponent of a positive natural: the number of digit
shifts until the value drops below 10. -/
def expFuel : Nat → Nat → Nat
  | 0, _ => 0
  | f+1, q => if q < 10 then 0 else 1 + expFuel f (q / 10)

/-- Fueled search for the least `k` with `n * 10 ^ k ≥ d` (the negated
decimal exponent of a rational below one). -/
def findKFuel : Nat → Nat → Nat → Nat
  | 0, _, _ => 0
  | f+1, n, d => if d ≤ n then 0 else 1 + findKFuel f (n * 10) d

/-- Round-half-even of `num / den`, the rounding Python's `format` applies. -/
def rhe (num den : Nat) : Nat :=
  let q := num / den
  let r := num % den
  if 2 * r < den then q
  else if den < 2 * r then q + 1
  else if q % 2 = 0 then q else q + 1

/-- The pieces of a number rendered by format spec `.15e`: sign, the single
leading mantissa digit, exactly fifteen fractional digits, and the decimal
exponent. -/
structure Sci where
  neg : Bool
  lead : Nat
  frac : List Nat
  exp : Int
deriving DecidableEq, Repr

/-- Semantics of Python `format(x, '.15e')` on the exact rational value of
the float: pick the decimal exponent, round the mantissa half-even to
sixteen significant digits, and carry into the exponent when rounding
overflows. -/
def sci15 (x : ℚ) : Sci :=
  if x = 0 then ⟨false, 0, List.replicate 15 0, 0⟩
  else
    let n := x.num.natAbs
    let d := x.den
    let e : Int := if d ≤ n then (expFuel n (n / d) : Int) else -(findKFuel d n d : Int)
    let s : Int := 15 - e
    let M := rhe (n * 10 ^ s.toNat) (d * 10 ^ (-s).toNat)
    let M' := if 10 ^ 16 ≤ M then M / 10 else M
    let e' := if 10 ^ 16 ≤ M then e + 1 else e
    ⟨x.num < 0, M' / 10 ^ 15, digitsFix 15 (M' % 10 ^ 15), e'⟩

/-- Render the exponent with at least two digits, as Python does. -/
def padExp (n : Nat) : String := if n < 10 then "0" ++ toString n else toString n

/-- Render a `Sci` the way format spec `.15e` prints it. -/
def renderSci (s : Sci) : String :=
  (if s.neg then "-" else "") ++ toString s.lead ++ "."
    ++ String.mk (s.frac.map fun d => Char.ofNat (48 + d))
    ++ "e" ++ (if s.exp < 0 then "-" else "+") ++ padExp s.exp.natAbs

/-- `format(value, '.15e')` on a float value. -/
def formatE15 (x : ℚ) : String := renderSci (sci15 x)

/-- `format_val` (tao.py:80-83): floats are formatted with format spec
`.15e`; every other argument keeps its default string form (`format(value)`
is `str(value)` for ints and strings). -/
def format_val : Arg → String
  | Arg.float q => formatE15 q
  | Arg.int n => toString n
  | Arg.str s => s

/-- `join_args` (tao.py:86-87): `' '.join(map(format_val, args))`, written
out recursively. -/
def join_args : List Arg → String
  | [] => ""
  | [a] => format_val a
  | a :: rest => format_val a ++ " " ++ join_args rest

/-- Number of significant mantissa digits in a rendered scientific-form
string: the digit characters before the exponent marker. -/
def mantissaSigDigits (s : String) : Nat :=
  ((s.data.takeWhile fun c => c ≠ 'e').filter Char.isDigit).length

/-- The engine-side line buffer a structured query reads from: the total
line count reported by `tao_pipe.scratch_n_lines` and the line returned by
`tao_pipe.scratch_line(i)` for each 1-based index. -/
structure Pipe where
  n_lines : Nat
  line : Nat → String

/-- One request sent across the transport during a structured query. -/
inductive Req where
  | command (cmd : String)
  | scratch_n_lines
  | scratch_line (n : Nat)
deriving DecidableEq, Repr

/-- `Tao.python` (tao.py:175-203): issue the command prefixed with
`python -noprint`, fetch the scratch line count once, then fetch each
scratch line by 1-based index, splitting every returned line on `;`.
Returns the request trace alongside the decoded rows. -/
def python_query (pipe : Pipe) (args : List Arg) : List Req × List (List String) :=
  let cmd := join_args (Arg.str "python" :: Arg.str "-noprint" :: args)
  (Req.command cmd :: Req.scratch_n_lines
      :: (List.range pipe.n_lines).map fun n => Req.scratch_line (n + 1),
   (List.range pipe.n_lines).map fun n => (pipe.line (n + 1)).splitOn ";")

/-- An open file description a descriptor can refer to in the capture
model: the original terminal stream, or the write/read end of the pipe
created by `CaptureIO.__init__`. -/
inductive FTarget where
  | term
  | pipeW
  | pipeR
deriving DecidableEq, Repr

/-- The slice of process state `capture.py` manipulates: the descriptor
table, the next descriptor number the OS will hand out, the bytes sitting
in the pipe, and the bytes written to the terminal. -/
structure Sys where
  table : Nat → Option FTarget
  next : Nat
  pipeBuf : String
  termBuf : String

/-- Point update of the descriptor table. -/
def fdUpdate (t : Nat → Option FTarget) (fd : Nat) (v : Option FTarget) :
    Nat → Option FTarget :=
  fun n => if n = fd then v else t n

/-- `os.dup(fd)`: allocate a fresh descriptor referring to the same open
file description. -/
def sysDup (s : Sys) (fd : Nat) : Nat × Sys :=
  (s.next,
   { s with table := fdUpdate s.table s.next (s.table fd), next := s.next + 1 })

/-- `os.dup2(src, dst)`: make `dst` refer to whatever `src` refers to. -/
def sysDup2 (s : Sys) (src dst : Nat) : Sys :=
  { s with table := fdUpdate s.table dst (s.table src) }

/-- A synchronous write through a descriptor: the bytes land wherever the
descriptor currently points. -/
def sysWrite (s : Sys) (fd : Nat) (txt : String) : Sys :=
  match s.table fd with
  | some FTarget.pipeW => { s with pipeBuf := s.pipeBuf ++ txt }
  | some FTarget.term => { s with termBuf := s.termBuf ++ txt }
  | _ => s

/-- The descriptors held by a `CaptureIO` instance. -/
structure CaptureIO where
  pipe_out : Nat
  pipe_in : Nat
  fd : Nat

/-- `CaptureIO.__init__` (capture.py:21-23): `os.pipe()` creates a fresh
pipe, allocating the read end then the write end; the captured stream
descriptor defaults to stdout (1). -/
def mkCapture (s : Sys) (fd : Nat) : CaptureIO × Sys :=
  (⟨s.next, s.next + 1, fd⟩,
   { table := fdUpdate (fdUpdate s.table s.next (some FTarget.pipeR))
        (s.next + 1) (some FTarget.pipeW),
     next := s.next + 2, pipeBuf := "", termBuf := s.termBuf })

/-- The observable behaviour of the operation run under `capture`: the
chunks it writes to the captured stream before returning or raising. -/
structure Op where
  writes : List String
  raises : Bool

/-- Run the operation's writes against the captured descriptor. -/
def runOp (s : Sys) (fd : Nat) (op : Op) : Sys :=
  op.writes.foldl (fun acc t => sysWrite acc fd t) s

/-- `CaptureIO.enter` (capture.py:30-34): save a duplicate of the stream
descriptor, then point the stream at the pipe's write end. -/
def captureEnter (c : CaptureIO) (s : Sys) : Nat × Sys :=
  let (restore, s1) := sysDup s c.fd
  (restore, sysDup2 s1 c.pipe_in c.fd)

/-- `CaptureIO.exit` (capture.py:36-39): point the stream back at the saved
duplicate. -/
def captureExit (c : CaptureIO) (restore : Nat) (s : Sys) : Sys :=
  sysDup2 s restore c.fd

/-- `CaptureIO.read` (capture.py:46-55): drain the bytes available in the
pipe right now (all synchronously-written bytes, in this model). -/
def pipeRead (s : Sys) : String × Sys :=
  (s.pipeBuf, { s with pipeBuf := "" })

/-- `CaptureIO.capture` (capture.py:25-28): redirect inside a with-block —
so the restore in `exit` runs on the raising path too — then drain and
return the captured text; a raising operation propagates its exception
(`.error`) after restoration. -/
def captureRun (c : CaptureIO) (s : Sys) (op : Op) : Except Unit String × Sys :=
  let (restore, s1) := captureEnter c s
  let s2 := runOp s1 c.fd op
  let s3 := captureExit c restore s2
  if op.raises then (.error (), s3)
  else
    let (out, s4) := pipeRead s3
    (.ok out, s4)

/-- Concatenation of the chunks an operation writes (`''.join`). -/
def concatStrs : List String → String
  | [] => ""
  | w :: rest => w ++ concatStrs rest

/-- C1: folding the decoded pair sequence
`[("num_curves", 2), ("curve[1]", "a"), ("curve[2]", "b")]` produces the
property map `{curve: ["a", "b"]}`: the bracketed values are appended in
encounter order, the scalar key becomes the advertised count, and the
sibling `num_curves` key is removed after the length check, so it is absent
from the returned map (and no warning is logged). -/
theorem convert_arrays_folds_curve_pair :
    convert_arrays
      [("num_curves", Val.int 2), ("curve[1]", Val.str "a"), ("curve[2]", Val.str "b")]
      = .ok ([("curve", Entry.arr [Val.str "a", Val.str "b"])], []) := by decide

/-- C6: the response `[["INVALID"]]` decodes to the empty-result
representation in all three extractors: `_parse_dict` returns an empty map
(with no warnings), `_parse_list` an empty list, and `_parse_array` a
zero-row matrix with the default `(0, 0)` shape. -/
theorem invalid_sentinel_consistent_empty :
    parse_dict [["INVALID"]] = .ok ([], [])
    ∧ parse_list [["INVALID"]] = .ok []
    ∧ parse_array [["INVALID"]] (0, 0) = .ok ⟨(0, 0), []⟩ :=
  ⟨by decide, by decide, by decide⟩

/-- C8 counterexample: the float 3.5 is serialized as
`3.500000000000000e+00`, whose mantissa carries sixteen significant decimal
digits (one leading digit plus the fifteen digits of the `.15e` precision
field), not fifteen as claimed. -/
theorem format_val_sixteen_sig_digits :
    format_val (Arg.float (Rat.divInt 7 2)) = "3.500000000000000e+00"
    ∧ mantissaSigDigits (format_val (Arg.float (Rat.divInt 7 2))) = 16
    ∧ mantissaSigDigits (format_val (Arg.float (Rat.divInt 7 2))) ≠ 15 :=
  ⟨by decide, by decide, by decide⟩

/-- Every padded fractional digit string has exactly the requested length. -/
theorem digitsFix_length (k : Nat) : ∀ m, (digitsFix k m).length = k := by
  induction k with
  | zero => intro m; rfl
  | succ k ih => intro m; simp [digitsFix, ih]

/-- C8 amended: command serialization joins the arguments with single
spaces; every float argument is rendered in scientific notation with
exactly fifteen digits after the decimal point (sixteen significant
digits); non-float arguments keep their default string form. -/
theorem join_args_single_space_e15 (q : ℚ) (args : List Arg) :
    (sci15 q).frac.length = 15
    ∧ join_args (Arg.float q :: args)
        = formatE15 q ++ (if args = [] then "" else " " ++ join_args args)
    ∧ (∀ n : Int, format_val (Arg.int n) = toString n)
    ∧ (∀ s : String, format_val (Arg.str s) = s) := by
  refine ⟨?_, ?_, fun _ => rfl, fun _ => rfl⟩
  · by_cases hx : q = 0
    · simp [sci15, hx]
    · simp [sci15, hx, digitsFix_length]
  · cases args with
    | nil => simp [join_args, format_val]
    | cons b rest => simp [join_args, format_val, String.append_assoc]

/-- C4 counterexample: at a concrete advertised-count mismatch the decode
is not aborted and no mode is consulted: the best-effort map is returned
together with the logged report.  The severity of a consistency mismatch is
this fixed report-and-continue behaviour, not a caller-exposed setting. -/
theorem convert_arrays_mismatch_reports_and_returns :
    convert_arrays [("num_curves", Val.int 2), ("curve[1]", Val.str "a")]
      = .ok ([("curve", Entry.arr [Val.str "a"])],
             [Warning.lengthMismatch "curve" 2 1]) := by decide

/-- The scan loop computes the same map and array set as its warning-free
counterpart. -/
theorem scanItems_plain_eq (items : List (String × Val)) :
    ∀ st : FoldSt,
      Except.map (fun st' => (st'.result, st'.arrays)) (scanItems st items)
        = scanPlain st.result st.arrays items := by
  induction items with
  | nil => intro st; rfl
  | cons kv rest ih =>
      intro st
      obtain ⟨k, v⟩ := kv
      cases h : parseArrayKey k with
      | none =>
          simp only [scanItems, scanStep, h, scanPlain]
          exact ih _
      | some nv =>
          obtain ⟨name, index⟩ := nv
          cases he : pmLookup st.result name with
          | none =>
              simp only [scanItems, scanStep, h, he, scanPlain]
              exact ih _
          | some e =>
              cases e with
              | scalar w => simp only [scanItems, scanStep, h, he, scanPlain]; rfl
              | arr l =>
                  simp only [scanItems, scanStep, h, he, scanPlain]
                  exact ih _

/-- The post-scan loop computes the same map as its warning-free
counterpart. -/
theorem finalize_plain_eq (names : List String) :
    ∀ (m : PMap) (ws : List Warning),
      Except.map Prod.fst (finalize m names ws) = finalizePlain m names := by
  induction names with
  | nil => intro m ws; rfl
  | cons name rest ih =>
      intro m ws
      rcases hp : pmPop m (numKey name) with ⟨sib, m'⟩
      simp only [finalize, finalizePlain, hp]
      cases hsib : (match sib with | none => Except.ok (0 : Int) | some e => pyInt e) with
      | error e => rfl
      | ok count =>
          cases hlen : (match pmLookup m' name with
              | none => Except.error () | some e => pyLen e) with
          | error e => rfl
          | ok len => exact ih _ _

/-- C4 amended: an array-consistency mismatch never aborts the decode:
the property map `_convert_arrays` returns is exactly the map of the
warning-free fold, for every input — mismatches only add log warnings.
The severity is this fixed, implicit report-and-continue behaviour; no
strictness setting is exposed to the caller. -/
theorem convert_arrays_severity_fixed (items : List (String × Val)) :
    Except.map Prod.fst (convert_arrays items) = convert_arrays_plain items := by
  unfold convert_arrays convert_arrays_plain
  have h := scanItems_plain_eq items ⟨[], [], []⟩
  cases hs : scanItems ⟨[], [], []⟩ items with
  | error e =>
      rw [hs] at h
      rw [← h]
      rfl
  | ok st =>
      rw [hs] at h
      rw [← h]
      exact finalize_plain_eq st.arrays st.result st.warns

/-- C5: `_parse_dict_item` dispatches on the kind tag.  STR yields the raw
value string; INT yields the parsed integer and fails on non-numeric text;
REAL yields the parsed float and fails the same way; LOGIC yields true
exactly when the raw value equals `T`; ENUM passes the raw string through
undecoded; any other kind tag yields the kind tag itself without touching
the value; and the returned name is the lower-cased field name. -/
theorem parse_dict_item_dispatch (name vary value : String) (rest : List String) :
    parse_dict_item (name :: "STR" :: vary :: value :: rest)
      = .ok (pyLower name, Val.str value)
    ∧ (∀ n : Int, pyParseInt value = some n →
        parse_dict_item (name :: "INT" :: vary :: value :: rest)
          = .ok (pyLower name, Val.int n))
    ∧ (pyParseInt value = none →
        parse_dict_item (name :: "INT" :: vary :: value :: rest) = .error ())
    ∧ (∀ q : ℚ, pyParseFloat value = some q →
        parse_dict_item (name :: "REAL" :: vary :: value :: rest)
          = .ok (pyLower name, Val.real q))
    ∧ (pyParseFloat value = none →
        parse_dict_item (name :: "REAL" :: vary :: value :: rest) = .error ())
    ∧ parse_dict_item (name :: "LOGIC" :: vary :: value :: rest)
        = .ok (pyLower name, Val.bool (value == "T"))
    ∧ parse_dict_item (name :: "ENUM" :: vary :: value :: rest)
        = .ok (pyLower name, Val.str value)
    ∧ (∀ kind : String, kind ∉ ["STR", "INT", "REAL", "LOGIC", "ENUM"] →
        parse_dict_item (name :: kind :: vary :: value :: rest)
          = .ok (pyLower name, Val.str kind)) := by
  refine ⟨rfl, ?_, ?_, ?_, ?_, rfl, rfl, ?_⟩
  · intro n h; simp [parse_dict_item, h]
  · intro h; simp [parse_dict_item, h]
  · intro q h; simp [parse_dict_item, h]
  · intro h; simp [parse_dict_item, h]
  · intro kind h
    simp only [List.mem_cons, List.mem_singleton, not_or] at h
    obtain ⟨h1, h2, h3, h4, h5, _⟩ := h
    simp [parse_dict_item, h1, h2, h3, h4, h5]

/-- Witness for C5: the dispatch theorem applied to concrete records,
covering the integer parse, the logic decode, an unknown kind tag and the
lower-casing of the name. -/
theorem parse_dict_item_dispatch_witness :
    parse_dict_item ["Beta_A", "INT", "T", "7"] = .ok ("beta_a", Val.int 7)
    ∧ parse_dict_item ["X", "LOGIC", "F", "T"] = .ok ("x", Val.bool true)
    ∧ parse_dict_item ["y", "SPECIES", "F", "ignored"] = .ok ("y", Val.str "SPECIES")
    ∧ parse_dict_item ["z", "INT", "T", "abc"] = .error () := by
  refine ⟨?_, ?_, ?_, ?_⟩
  · have h := (parse_dict_item_dispatch "Beta_A" "T" "7" []).2.1 7 (by decide)
    rw [h]; decide
  · have h := (parse_dict_item_dispatch "X" "F" "T" []).2.2.2.2.2.1
    rw [h]; decide
  · have h := (parse_dict_item_dispatch "y" "F" "ignored" []).2.2.2.2.2.2.2
      "SPECIES" (by decide)
    rw [h]; decide
  · exact (parse_dict_item_dispatch "z" "T" "abc" []).2.2.1 (by decide)

/-- C7: `python(cmd)` sends the command prefixed with `python -noprint`,
then fetches the scratch line count once and each scratch line by its
1-based index in increasing order: N + 2 requests for N result lines, the
k-th line request carrying index k + 1, and the returned rows preserving
line order, each split on `;`. -/
theorem python_query_roundtrips (pipe : Pipe) (args : List Arg) :
    (python_query pipe args).1.length = pipe.n_lines + 2
    ∧ (python_query pipe args).1.get? 0
        = some (Req.command (join_args (Arg.str "python" :: Arg.str "-noprint" :: args)))
    ∧ (python_query pipe args).1.get? 1 = some Req.scratch_n_lines
    ∧ (∀ k, k < pipe.n_lines →
        (python_query pipe args).1.get? (k + 2) = some (Req.scratch_line (k + 1)))
    ∧ (python_query pipe args).2.length = pipe.n_lines
    ∧ (∀ k, k < pipe.n_lines →
        (python_query pipe args).2.get? k = some ((pipe.line (k + 1)).splitOn ";")) := by
  refine ⟨?_, rfl, rfl, ?_, ?_, ?_⟩
  · simp [python_query]
  · intro k hk
    simp [python_query, List.getElem?_map, List.getElem?_range hk]
  · simp [python_query]
  · intro k hk
    simp [python_query, List.getElem?_map, List.getElem?_range hk]

/-- Witness for C7: the round-trip theorem at a two-line scratch buffer. -/
theorem python_query_roundtrips_witness :
    (python_query ⟨2, fun _ => "u;v"⟩ []).1.length = 2 + 2
    ∧ (python_query ⟨2, fun _ => "u;v"⟩ []).1.get? 2 = some (Req.scratch_line 1)
    ∧ (python_query ⟨2, fun _ => "u;v"⟩ []).2.get? 1 = some ("u;v".splitOn ";") :=
  ⟨(python_query_roundtrips ⟨2, fun _ => "u;v"⟩ []).1,
   (python_query_roundtrips ⟨2, fun _ => "u;v"⟩ []).2.2.2.1 0 (by decide),
   (python_query_roundtrips ⟨2, fun _ => "u;v"⟩ []).2.2.2.2.2 1 (by decide)⟩

/-- Writing chunks through a descriptor that points at the pipe's write end
only grows the pipe buffer: the descriptor table, allocation counter and
terminal buffer are untouched. -/
theorem writes_to_pipe (ws : List String) :
    ∀ (s : Sys) (fd : Nat), s.table fd = some FTarget.pipeW →
      (ws.foldl (fun acc t => sysWrite acc fd t) s).table = s.table
      ∧ (ws.foldl (fun acc t => sysWrite acc fd t) s).next = s.next
      ∧ (ws.foldl (fun acc t => sysWrite acc fd t) s).pipeBuf = s.pipeBuf ++ concatStrs ws
      ∧ (ws.foldl (fun acc t => sysWrite acc fd t) s).termBuf = s.termBuf := by
  induction ws with
  | nil =>
      intro s fd h
      refine ⟨rfl, rfl, ?_, rfl⟩
      show s.pipeBuf = s.pipeBuf ++ concatStrs []
      rw [show concatStrs [] = "" from rfl, String.append_empty]
  | cons w rest ih =>
      intro s fd h
      have hw : sysWrite s fd w = { s with pipeBuf := s.pipeBuf ++ w } := by
        simp [sysWrite, h]
      have h2 : (sysWrite s fd w).table fd = some FTarget.pipeW := by rw [hw]; exact h
      obtain ⟨ht, hn, hp, hm⟩ := ih (sysWrite s fd w) fd h2
      refine ⟨by rw [List.foldl_cons, ht, hw], by rw [List.foldl_cons, hn, hw],
        ?_, by rw [List.foldl_cons, hm, hw]⟩
      rw [List.foldl_cons, hp, hw]
      show s.pipeBuf ++ w ++ concatStrs rest = s.pipeBuf ++ concatStrs (w :: rest)
      rw [String.append_assoc]
      rfl

/-- C9: `capture(operation)` substitutes the pipe's write end for the
captured stream descriptor for the duration of the operation and restores
the original descriptor on every exit path — the raising path included —
and, when the operation returns normally, the synchronously-written bytes
drained from the pipe are returned. -/
theorem capture_restores_stream (s0 : Sys) (fd : Nat) (t0 : FTarget) (op : Op)
    (hfd : s0.table fd = some t0) (hlt : fd < s0.next) :
    ((captureRun (mkCapture s0 fd).1 (mkCapture s0 fd).2 op).2).table fd = some t0
    ∧ (op.raises = false →
        (captureRun (mkCapture s0 fd).1 (mkCapture s0 fd).2 op).1
          = .ok (concatStrs op.writes))
    ∧ (op.raises = true →
        (captureRun (mkCapture s0 fd).1 (mkCapture s0 fd).2 op).1 = .error ()) := by
  have hne1 : fd ≠ s0.next := by omega
  have hne2 : fd ≠ s0.next + 1 := by omega
  have hpw : ((captureEnter (mkCapture s0 fd).1 (mkCapture s0 fd).2).2).table fd
      = some FTarget.pipeW := by
    simp [captureEnter, mkCapture, sysDup, sysDup2, fdUpdate, hne1, hne2,
      show s0.next + 1 ≠ s0.next + 2 by omega]
  have hrest : ((captureEnter (mkCapture s0 fd).1 (mkCapture s0 fd).2).2).table (s0.next + 2)
      = some t0 := by
    simp [captureEnter, mkCapture, sysDup, sysDup2, fdUpdate, hfd, hne1, hne2,
      show s0.next + 2 ≠ fd by omega,
      show s0.next + 2 ≠ s0.next + 1 by omega, show s0.next + 2 ≠ s0.next by omega]
  have hbuf : ((captureEnter (mkCapture s0 fd).1 (mkCapture s0 fd).2).2).pipeBuf = "" := by
    simp [captureEnter, mkCapture, sysDup, sysDup2]
  obtain ⟨hT, hN, hP, hM⟩ :=
    writes_to_pipe op.writes ((captureEnter (mkCapture s0 fd).1 (mkCapture s0 fd).2).2) fd hpw
  have hmain : ∀ b : Bool, op.raises = b →
      ((captureRun (mkCapture s0 fd).1 (mkCapture s0 fd).2 op).2).table fd = some t0
      ∧ (b = false →
          (captureRun (mkCapture s0 fd).1 (mkCapture s0 fd).2 op).1
            = .ok (concatStrs op.writes)) := by
    intro b hb
    cases b with
    | false =>
        constructor
        · unfold captureRun runOp captureExit sysDup2 pipeRead
          simp only [hb, Bool.false_eq_true, if_false]
          simp only [show (mkCapture s0 fd).1.fd = fd from rfl,
            show (captureEnter (mkCapture s0 fd).1 (mkCapture s0 fd).2).1
              = s0.next + 2 from rfl]
          simp [hT, hrest, fdUpdate]
        · intro _
          unfold captureRun runOp captureExit sysDup2 pipeRead
          simp only [hb, Bool.false_eq_true, if_false]
          simp only [show (mkCapture s0 fd).1.fd = fd from rfl]
          simp [hP, hbuf, String.empty_append]
    | true =>
        refine ⟨?_, fun hcontra => by cases hcontra⟩
        unfold captureRun runOp captureExit sysDup2
        simp only [hb, if_true]
        simp only [show (mkCapture s0 fd).1.fd = fd from rfl,
          show (captureEnter (mkCapture s0 fd).1 (mkCapture s0 fd).2).1
            = s0.next + 2 from rfl]
        simp [hT, hrest, fdUpdate]
  refine ⟨(hmain op.raises rfl).1, fun h => ?_, fun h => ?_⟩
  · exact (hmain false h).2 rfl
  · unfold captureRun
    simp [h]

/-- Witness for C9: with stdout open as descriptor 1 of a fresh process
state, capturing an operation that writes `hello` returns `hello`, and the
stream points back at the terminal after a raising capture. -/
theorem capture_restores_stream_witness :
    (captureRun
        (mkCapture ⟨fun n => if n = 1 then some FTarget.term else none, 2, "", ""⟩ 1).1
        (mkCapture ⟨fun n => if n = 1 then some FTarget.term else none, 2, "", ""⟩ 1).2
        ⟨["hello"], false⟩).1 = .ok "hello"
    ∧ ((captureRun
        (mkCapture ⟨fun n => if n = 1 then some FTarget.term else none, 2, "", ""⟩ 1).1
        (mkCapture ⟨fun n => if n = 1 then some FTarget.term else none, 2, "", ""⟩ 1).2
        ⟨["hel"], true⟩).2).table 1 = some FTarget.term := by
  constructor
  · have h := (capture_restores_stream
      ⟨fun n => if n = 1 then some FTarget.term else none, 2, "", ""⟩ 1 FTarget.term
      ⟨["hello"], false⟩ (by decide) (by decide)).2.1 rfl
    rw [h]
    show Except.ok (concatStrs ["hello"]) = Except.ok "hello"
    decide
  · exact (capture_restores_stream
      ⟨fun n => if n = 1 then some FTarget.term else none, 2, "", ""⟩ 1 FTarget.term
      ⟨["hel"], true⟩ (by decide) (by decide)).1

/-- Lookup after assignment: the assigned key reads back the new entry,
every other key is untouched. -/
theorem pmLookup_insert (m : PMap) (key : String) (e : Entry) :
    ∀ q, pmLookup (pmInsert m key e) q = if q = key then some e else pmLookup m q := by
  induction m with
  | nil =>
      intro q
      by_cases h : q = key
      · simp [pmInsert, pmLookup, h]
      · simp [pmInsert, pmLookup, h, Ne.symm h]
  | cons kv rest ih =>
      intro q
      obtain ⟨k0, e0⟩ := kv
      by_cases hk : k0 = key
      · subst hk
        by_cases hq : q = k0
        · simp [pmInsert, pmLookup, hq]
        · simp [pmInsert, pmLookup, hq, Ne.symm hq]
      · by_cases hq : q = k0
        · subst hq
          simp [pmInsert, pmLookup, hk, Ne.symm hk]
        · simp [pmInsert, pmLookup, hk, Ne.symm hq, ih]

/-- `pop` returns exactly what lookup sees. -/
theorem pmPop_fst (m : PMap) (key : String) : (pmPop m key).1 = pmLookup m key := by
  induction m with
  | nil => rfl
  | cons kv rest ih =>
      obtain ⟨k0, e0⟩ := kv
      by_cases hk : k0 = key
      · simp [pmPop, pmLookup, hk]
      · simp [pmPop, pmLookup, hk, ih]

/-- Popping one key leaves every other key's lookup unchanged. -/
theorem pmPop_lookup_ne (m : PMap) (key q : String) (hq : q ≠ key) :
    pmLookup (pmPop m key).2 q = pmLookup m q := by
  induction m with
  | nil => rfl
  | cons kv rest ih =>
      obtain ⟨k0, e0⟩ := kv
      by_cases hk : k0 = key
      · subst hk
        simp [pmPop, pmLookup, Ne.symm hq]
      · simp [pmPop, pmLookup, hk, ih]

/-- Keys of a map headed by one binding. -/
theorem pmKeys_cons (k : String) (e : Entry) (m : PMap) :
    pmKeys ((k, e) :: m) = k :: pmKeys m := rfl

/-- Keys after assignment: unchanged when the key was present, appended
otherwise. -/
theorem pmKeys_insert (m : PMap) (key : String) (e : Entry) :
    pmKeys (pmInsert m key e)
      = if key ∈ pmKeys m then pmKeys m else pmKeys m ++ [key] := by
  induction m with
  | nil => simp [pmInsert, pmKeys]
  | cons kv rest ih =>
      obtain ⟨k0, e0⟩ := kv
      by_cases hk : k0 = key
      · simp [pmInsert, hk, pmKeys_cons, List.mem_cons]
      · by_cases hmem : key ∈ pmKeys rest
        · simp [pmInsert, hk, pmKeys_cons, List.mem_cons, Ne.symm hk, hmem, ih]
        · simp [pmInsert, hk, pmKeys_cons, List.mem_cons, Ne.symm hk, hmem, ih]

/-- Assignment preserves key uniqueness. -/
theorem pmInsert_nodup (m : PMap) (key : String) (e : Entry)
    (h : (pmKeys m).Nodup) : (pmKeys (pmInsert m key e)).Nodup := by
  rw [pmKeys_insert]
  by_cases hmem : key ∈ pmKeys m
  · simpa [hmem] using h
  · simp [hmem, List.nodup_append, h]

/-- A key that is absent reads back as `none`. -/
theorem pmLookup_eq_none_of_not_mem (m : PMap) (key : String)
    (h : key ∉ pmKeys m) : pmLookup m key = none := by
  induction m with
  | nil => rfl
  | cons kv rest ih =>
      obtain ⟨k0, e0⟩ := kv
      simp only [pmKeys, List.map_cons, List.mem_cons, not_or] at h
      simp [pmLookup, Ne.symm h.1, ih (by simpa [pmKeys] using h.2)]

/-- The keys remaining after a pop form a sublist of the original keys. -/
theorem pmPop_keys_sublist (m : PMap) (key : String) :
    (pmKeys (pmPop m key).2).Sublist (pmKeys m) := by
  induction m with
  | nil => simp [pmPop, pmKeys]
  | cons kv rest ih =>
      obtain ⟨k0, e0⟩ := kv
      by_cases hk : k0 = key
      · simp only [pmPop, if_pos hk, pmKeys, List.map_cons]
        exact List.sublist_cons_of_sublist _ (List.Sublist.refl _)
      · simp only [pmPop, if_neg hk, pmKeys, List.map_cons]
        exact List.Sublist.cons₂ _ ih

/-- Popping preserves key uniqueness. -/
theorem pmPop_nodup (m : PMap) (key : String)
    (h : (pmKeys m).Nodup) : (pmKeys (pmPop m key).2).Nodup :=
  h.sublist (pmPop_keys_sublist m key)

/-- With unique keys, the popped key is gone. -/
theorem pmPop_lookup_eq (m : PMap) (key : String)
    (h : (pmKeys m).Nodup) : pmLookup (pmPop m key).2 key = none := by
  induction m with
  | nil => rfl
  | cons kv rest ih =>
      obtain ⟨k0, e0⟩ := kv
      simp only [pmKeys, List.map_cons, List.nodup_cons] at h
      by_cases hk : k0 = key
      · subst hk
        simp only [pmPop, if_pos rfl]
        exact pmLookup_eq_none_of_not_mem rest k0 (by simpa [pmKeys] using h.1)
      · simp [pmPop, pmLookup, hk, ih h.2]

/-- One scan step either leaves the warning list unchanged or appends a
single index-order warning naming the bracketed key it just processed. -/
theorem scanStep_warns (st : FoldSt) (k : String) (v : Val) (st' : FoldSt)
    (h : scanStep st k v = .ok st') :
    st'.warns = st.warns
    ∨ ∃ n g e, parseArrayKey k = some (n, g)
        ∧ st'.warns = st.warns ++ [Warning.indexOrder n g e] := by
  unfold scanStep at h
  cases hp : parseArrayKey k with
  | none =>
      simp only [hp] at h
      injection h with h
      subst h
      exact Or.inl rfl
  | some nv =>
      obtain ⟨name, index⟩ := nv
      simp only [hp] at h
      cases he : pmLookup st.result name with
      | none =>
          simp only [he] at h
          injection h with h
          subst h
          exact Or.inl rfl
      | some e =>
          cases e with
          | scalar w => simp only [he] at h; exact Except.noConfusion h
          | arr l =>
              simp only [he] at h
              injection h with h
              subst h
              by_cases h1 : l = []
              · left; simp [h1]
              · by_cases h2 : index = l.length + 1
                · left; simp [h1, h2]
                · right
                  refine ⟨name, index, l.length + 1, rfl, ?_⟩
                  simp [h1, h2]

/-- The scan loop never removes a logged warning. -/
theorem scan_warns_mono (items : List (String × Val)) :
    ∀ st st', scanItems st items = .ok st' → ∀ w ∈ st.warns, w ∈ st'.warns := by
  induction items with
  | nil =>
      intro st st' h w hw
      simp only [scanItems] at h
      injection h with h
      subst h
      exact hw
  | cons kv rest ih =>
      intro st st' h w hw
      obtain ⟨k, v⟩ := kv
      simp only [scanItems] at h
      cases hs : scanStep st k v with
      | error e =>
          rw [hs] at h
          exact Except.noConfusion h
      | ok st1 =>
          simp only [hs] at h
          refine ih st1 st' h w ?_
          rcases scanStep_warns st k v st1 hs with heq | ⟨n, g, e2, _, heq⟩
          · rw [heq]; exact hw
          · rw [heq]; exact List.mem_append_left _ hw

/-- The post-scan loop keeps every warning it is handed and only ever adds
length-mismatch warnings: an index-order warning in its output was already
present in its input. -/
theorem finalize_warns (names : List String) :
    ∀ m ws m' ws', finalize m names ws = .ok (m', ws') →
      (∀ w ∈ ws, w ∈ ws')
      ∧ (∀ n g e, Warning.indexOrder n g e ∈ ws' → Warning.indexOrder n g e ∈ ws) := by
  induction names with
  | nil =>
      intro m ws m' ws' h
      simp only [finalize] at h
      injection h with h
      cases h
      exact ⟨fun w hw => hw, fun n g e hm => hm⟩
  | cons name rest ih =>
      intro m ws m' ws' h
      simp only [finalize] at h
      rcases hp : pmPop m (numKey name) with ⟨sib, m1⟩
      rw [hp] at h
      cases hc : (match sib with | none => Except.ok (0 : Int) | some e => pyInt e) with
      | error e =>
          rw [hc] at h
          exact Except.noConfusion h
      | ok count =>
          cases hl : (match pmLookup m1 name with
              | none => Except.error () | some e => pyLen e) with
          | error e =>
              rw [hc, hl] at h
              exact Except.noConfusion h
          | ok len =>
              simp only [hc, hl] at h
              obtain ⟨hmono, hback⟩ := ih m1 _ m' ws' h
              constructor
              · intro w hw
                refine hmono w ?_
                by_cases hne : count ≠ (len : Int)
                · simp only [if_pos hne]
                  exact List.mem_append_left _ hw
                · simp only [if_neg hne]
                  exact hw
              · intro n g e hmem
                have hmem2 := hback n g e hmem
                by_cases hne : count ≠ (len : Int)
                · rw [if_pos hne] at hmem2
                  rcases List.mem_append.mp hmem2 with h1 | h1
                  · exact h1
                  · simp at h1
                · rwa [if_neg hne] at hmem2

/-- Full characterization of one successful scan step: what the key parsed
to, how the warning list moved, and what every lookup reads afterwards. -/
theorem scanStep_lookup (st : FoldSt) (k : String) (v : Val) (st' : FoldSt)
    (h : scanStep st k v = .ok st') (q : String) :
    (parseArrayKey k = none ∧ st'.warns = st.warns ∧ st'.arrays = st.arrays
       ∧ pmLookup st'.result q
           = (if q = k then some (Entry.scalar v) else pmLookup st.result q))
    ∨ (∃ n i, parseArrayKey k = some (n, i)
       ∧ st'.arrays = addSet st.arrays n
       ∧ ((pmLookup st.result n = none ∧ st'.warns = st.warns
             ∧ pmLookup st'.result q
                 = (if q = n then some (Entry.arr [v]) else pmLookup st.result q))
          ∨ (∃ l, pmLookup st.result n = some (Entry.arr l)
             ∧ pmLookup st'.result q
                 = (if q = n then some (Entry.arr (l ++ [v])) else pmLookup st.result q)))) := by
  unfold scanStep at h
  cases hp : parseArrayKey k with
  | none =>
      simp only [hp] at h
      injection h with h
      subst h
      exact Or.inl ⟨rfl, rfl, rfl, pmLookup_insert st.result k (Entry.scalar v) q⟩
  | some nv =>
      obtain ⟨name, index⟩ := nv
      simp only [hp] at h
      cases he : pmLookup st.result name with
      | none =>
          simp only [he] at h
          injection h with h
          subst h
          exact Or.inr ⟨name, index, rfl, rfl,
            Or.inl ⟨he, rfl, pmLookup_insert st.result name (Entry.arr [v]) q⟩⟩
      | some e =>
          cases e with
          | scalar w => simp only [he] at h; exact Except.noConfusion h
          | arr l =>
              simp only [he] at h
              injection h with h
              subst h
              exact Or.inr ⟨name, index, rfl, rfl,
                Or.inr ⟨l, he, pmLookup_insert st.result name (Entry.arr (l ++ [v])) q⟩⟩

/-- A non-bracketed head item leaves the occurrence list alone. -/
theorem bracketOccs_cons_none {k : String} (hp : parseArrayKey k = none)
    (v : Val) (rest : List (String × Val)) (name : String) :
    bracketOccs ((k, v) :: rest) name = bracketOccs rest name := by
  simp [bracketOccs, List.filterMap_cons, hp]

/-- A bracketed head item for a different name leaves the occurrence list
alone. -/
theorem bracketOccs_cons_other {k n2 : String} {i2 : Nat}
    (hp : parseArrayKey k = some (n2, i2)) {name : String} (hn : n2 ≠ name)
    (v : Val) (rest : List (String × Val)) :
    bracketOccs ((k, v) :: rest) name = bracketOccs rest name := by
  simp [bracketOccs, List.filterMap_cons, hp, hn]

/-- A bracketed head item for the name itself prepends its occurrence. -/
theorem bracketOccs_cons_same {k name : String} {i2 : Nat}
    (hp : parseArrayKey k = some (name, i2)) (v : Val) (rest : List (String × Val)) :
    bracketOccs ((k, v) :: rest) name = (i2, v) :: bracketOccs rest name := by
  simp [bracketOccs, List.filterMap_cons, hp]

/-- Once a scalar sits under a name, any later bracketed occurrence of that
name makes the scan raise (`append` on a non-list). -/
theorem scan_scalar_blocks (items : List (String × Val)) :
    ∀ st name, (∃ w, pmLookup st.result name = some (Entry.scalar w)) →
      bracketOccs items name ≠ [] →
      ∀ st', scanItems st items ≠ .ok st' := by
  induction items with
  | nil =>
      intro st name _ hocc st'
      simp [bracketOccs] at hocc
  | cons kv rest ih =>
      intro st name hent hocc st' h
      obtain ⟨k, v⟩ := kv
      obtain ⟨w, hw⟩ := hent
      simp only [scanItems] at h
      cases hs : scanStep st k v with
      | error e => rw [hs] at h; exact Except.noConfusion h
      | ok st1 =>
          simp only [hs] at h
          rcases scanStep_lookup st k v st1 hs name with
            ⟨hp, _, _, hlook⟩ | ⟨n2, i2, hp, _, hrest⟩
          · refine ih st1 name ?_ ?_ st' h
            · by_cases hkn : name = k
              · exact ⟨v, by rw [hlook, if_pos hkn]⟩
              · exact ⟨w, by rw [hlook, if_neg hkn]; exact hw⟩
            · rwa [bracketOccs_cons_none hp] at hocc
          · by_cases hn : n2 = name
            · subst hn
              rcases hrest with ⟨hnone, _, _⟩ | ⟨l, hl, _⟩
              · rw [hw] at hnone; exact Option.noConfusion hnone
              · rw [hw] at hl
                injection hl with hl
                exact Entry.noConfusion hl
            · refine ih st1 name ⟨w, ?_⟩ ?_ st' h
              · rcases hrest with ⟨_, _, hlook⟩ | ⟨l, _, hlook⟩ <;>
                  rw [hlook, if_neg (fun hq => hn hq.symm)] <;> exact hw
              · rwa [bracketOccs_cons_other hp hn] at hocc

/-- With no bracketed occurrence of a name left, the scan adds no
index-order warning for that name. -/
theorem scan_no_occ_idx_warn (items : List (String × Val)) :
    ∀ st st' name, bracketOccs items name = [] →
      scanItems st items = .ok st' →
      ∀ g e, Warning.indexOrder name g e ∈ st'.warns →
        Warning.indexOrder name g e ∈ st.warns := by
  induction items with
  | nil =>
      intro st st' name _ h g e hm
      simp only [scanItems] at h
      injection h with h
      subst h
      exact hm
  | cons kv rest ih =>
      intro st st' name hocc h g e hm
      obtain ⟨k, v⟩ := kv
      simp only [scanItems] at h
      cases hs : scanStep st k v with
      | error e2 => rw [hs] at h; exact Except.noConfusion h
      | ok st1 =>
          simp only [hs] at h
          have hocc' : bracketOccs rest name = [] := by
            cases hp : parseArrayKey k with
            | none => rwa [bracketOccs_cons_none hp] at hocc
            | some nv =>
                obtain ⟨n2, i2⟩ := nv
                by_cases hn : n2 = name
                · subst hn
                  rw [bracketOccs_cons_same hp] at hocc
                  exact absurd hocc (by simp)
                · rwa [bracketOccs_cons_other hp hn] at hocc
          have hm1 := ih st1 st' name hocc' h g e hm
          rcases scanStep_warns st k v st1 hs with heq | ⟨n, g2, e2, hpk, heq⟩
          · rwa [heq] at hm1
          · rw [heq] at hm1
            rcases List.mem_append.mp hm1 with h1 | h1
            · exact h1
            · exfalso
              simp only [List.mem_singleton] at h1
              injection h1 with hn1 hn2 hn3
              subst hn1
              rw [bracketOccs_cons_same hpk] at hocc
              exact List.noConfusion hocc

/-- A name whose bracketed occurrences number at most one, starting from a
state that holds no accumulator for it, never gains an index-order warning:
the first occurrence's index is recorded but not compared. -/
theorem scan_single_occ_idx_warn (items : List (String × Val)) :
    ∀ st st' name, (bracketOccs items name).length ≤ 1 →
      (∀ l, pmLookup st.result name ≠ some (Entry.arr l)) →
      scanItems st items = .ok st' →
      ∀ g e, Warning.indexOrder name g e ∈ st'.warns →
        Warning.indexOrder name g e ∈ st.warns := by
  induction items with
  | nil =>
      intro st st' name _ _ h g e hm
      simp only [scanItems] at h
      injection h with h
      subst h
      exact hm
  | cons kv rest ih =>
      intro st st' name hocc hent h g e hm
      obtain ⟨k, v⟩ := kv
      simp only [scanItems] at h
      cases hs : scanStep st k v with
      | error e2 => rw [hs] at h; exact Except.noConfusion h
      | ok st1 =>
          simp only [hs] at h
          rcases scanStep_lookup st k v st1 hs name with
            ⟨hp, hwarns, _, hlook⟩ | ⟨n2, i2, hp, _, hrest⟩
          · -- non-bracketed head: entry stays a non-accumulator, warns unchanged
            have hocc' : (bracketOccs rest name).length ≤ 1 := by
              rwa [bracketOccs_cons_none hp] at hocc
            have hent1 : ∀ l, pmLookup st1.result name ≠ some (Entry.arr l) := by
              intro l
              rw [hlook]
              by_cases hq : name = k
              · simp [hq]
              · simp only [if_neg hq]
                exact hent l
            have := ih st1 st' name hocc' hent1 h g e hm
            rwa [hwarns] at this
          · by_cases hn : n2 = name
            · subst hn
              rcases hrest with ⟨hnone, hwarns, hlook⟩ | ⟨l, hl, _⟩
              · -- the single occurrence itself: accumulator created, no warning
                have hocc' : bracketOccs rest n2 = [] := by
                  rw [bracketOccs_cons_same hp] at hocc
                  simp only [List.length_cons] at hocc
                  have h0 : (bracketOccs rest n2).length = 0 := by omega
                  exact List.length_eq_zero.mp h0
                have := scan_no_occ_idx_warn rest st1 st' n2 hocc' h g e hm
                rwa [hwarns] at this
              · exact absurd hl (hent l)
            · -- bracketed head for another name
              have hocc' : (bracketOccs rest name).length ≤ 1 := by
                rwa [bracketOccs_cons_other hp hn] at hocc
              have hent1 : ∀ l, pmLookup st1.result name ≠ some (Entry.arr l) := by
                intro l
                rcases hrest with ⟨_, _, hlook⟩ | ⟨l2, _, hlook⟩ <;>
                  rw [hlook, if_neg (fun hq => hn hq.symm)] <;> exact hent l
              have hm1 := ih st1 st' name hocc' hent1 h g e hm
              rcases scanStep_warns st k v st1 hs with heq | ⟨n3, g3, e3, hpk, heq⟩
              · rwa [heq] at hm1
              · rw [heq] at hm1
                rcases List.mem_append.mp hm1 with h1 | h1
                · exact h1
                · exfalso
                  simp only [List.mem_singleton] at h1
                  injection h1 with hn1 hn2 hn3
                  rw [hpk] at hp
                  injection hp with hp
                  injection hp with hpa hpb
                  exact hn (hpa.symm.trans hn1.symm)

/-- C10: the index of the first bracketed occurrence of a name is never
validated: when a name's only bracketed key is `name[k]`, the fold (when it
returns) signals no index-order inconsistency for that name, whatever the
integer k — while a second occurrence whose index differs from the
accumulated length, as in `curve[2]` followed by `curve[3]`, is reported. -/
theorem first_bracket_index_unchecked (items : List (String × Val)) (name : String)
    (k : Nat) (v : Val) (m : PMap) (ws : List Warning)
    (hocc : bracketOccs items name = [(k, v)])
    (hok : convert_arrays items = .ok (m, ws)) :
    (∀ g e, Warning.indexOrder name g e ∉ ws)
    ∧ convert_arrays
        [("num_curves", Val.int 2), ("curve[2]", Val.str "a"), ("curve[3]", Val.str "b")]
        = .ok ([("curve", Entry.arr [Val.str "a", Val.str "b"])],
               [Warning.indexOrder "curve" 3 2]) := by
  refine ⟨?_, by decide⟩
  intro g e hmem
  unfold convert_arrays at hok
  cases hs : scanItems ⟨[], [], []⟩ items with
  | error e2 => rw [hs] at hok; exact Except.noConfusion hok
  | ok st =>
      rw [hs] at hok
      have h1 := (finalize_warns st.arrays st.result st.warns m ws hok).2 name g e hmem
      have h2 := scan_single_occ_idx_warn items ⟨[], [], []⟩ st name
        (by rw [hocc]; exact Nat.le_refl 1) (by intro l h; exact Option.noConfusion h) hs g e h1
      simp at h2

/-- Witness for C10: `num_curves = 1` with `curve[5]` as the only bracketed
key folds with no index-order warning at all (and no warning whatsoever). -/
theorem first_bracket_index_unchecked_witness :
    bracketOccs [("num_curves", Val.int 1), ("curve[5]", Val.str "a")] "curve"
      = [(5, Val.str "a")]
    ∧ (∀ g e, Warning.indexOrder "curve" g e ∉ ([] : List Warning)) := by
  constructor
  · decide
  · intro g e
    exact (first_bracket_index_unchecked
      [("num_curves", Val.int 1), ("curve[5]", Val.str "a")] "curve" 5 (Val.str "a")
      [("curve", Entry.arr [Val.str "a"])] []
      (by decide) (by decide)).1 g e

/-- If some bracketed occurrence of a name beyond the first (counting the
values already accumulated) carries an index different from the accumulated
length it will produce, the scan — when it returns — has logged an
index-order warning for that name. -/
theorem scan_gap_warns_aux (items : List (String × Val)) :
    ∀ (st : FoldSt) (name : String) (c t : Nat) (p : Nat × Val),
      ((pmLookup st.result name = none ∧ c = 0)
        ∨ (∃ l, pmLookup st.result name = some (Entry.arr l) ∧ l.length = c)) →
      (bracketOccs items name).get? t = some p →
      p.1 ≠ c + t + 1 → 2 ≤ c + t + 1 →
      ∀ st', scanItems st items = .ok st' →
      ∃ g e, Warning.indexOrder name g e ∈ st'.warns := by
  induction items with
  | nil =>
      intro st name c t p hent hidx hne hge st' h
      simp [bracketOccs] at hidx
  | cons kv rest ih =>
      intro st name c t p hent hidx hne hge st' h
      obtain ⟨k, v⟩ := kv
      simp only [scanItems] at h
      cases hs : scanStep st k v with
      | error e2 => rw [hs] at h; exact Except.noConfusion h
      | ok st1 =>
          simp only [hs] at h
          cases hp : parseArrayKey k with
          | none =>
              have hidx' : (bracketOccs rest name).get? t = some p := by
                rwa [bracketOccs_cons_none hp] at hidx
              rcases scanStep_lookup st k v st1 hs name with
                ⟨_, hwarns, _, hlook⟩ | ⟨n2, i2, hp2, _, _⟩
              · by_cases hkn : name = k
                · exfalso
                  have hocc : bracketOccs rest name ≠ [] := by
                    intro h0
                    rw [h0] at hidx'
                    simp at hidx'
                  exact scan_scalar_blocks rest st1 name
                    ⟨v, by rw [hlook, if_pos hkn]⟩ hocc st' h
                · refine ih st1 name c t p ?_ hidx' hne hge st' h
                  rcases hent with ⟨hnone, hc⟩ | ⟨l, hl, hlen⟩
                  · exact Or.inl ⟨by rw [hlook, if_neg hkn]; exact hnone, hc⟩
                  · exact Or.inr ⟨l, by rw [hlook, if_neg hkn]; exact hl, hlen⟩
              · rw [hp] at hp2; exact Option.noConfusion hp2
          | some nv =>
              obtain ⟨n2, i2⟩ := nv
              by_cases hn : n2 = name
              · subst hn
                have hidx2 : ((i2, v) :: bracketOccs rest n2).get? t = some p := by
                  rwa [bracketOccs_cons_same hp] at hidx
                rcases hent with ⟨hnone, hc0⟩ | ⟨l, hl, hlen⟩
                · subst hc0
                  simp only [scanStep, hp, hnone] at hs
                  injection hs with hs
                  cases t with
                  | zero => omega
                  | succ t' =>
                      refine ih st1 n2 1 t' p ?_ (by simpa using hidx2)
                        (by omega) (by omega) st' h
                      right
                      refine ⟨[v], ?_, rfl⟩
                      rw [← hs]
                      show pmLookup (pmInsert st.result n2 (Entry.arr [v])) n2
                        = some (Entry.arr [v])
                      rw [pmLookup_insert, if_pos rfl]
                · simp only [scanStep, hp, hl] at hs
                  injection hs with hs
                  cases t with
                  | zero =>
                      have hl0 : ¬(l = []) := by
                        intro h0
                        rw [h0] at hlen
                        simp at hlen
                        omega
                      have hp0 : (i2, v) = p := by simpa using hidx2
                      have hI : ¬(i2 = l.length + 1) := by
                        intro h0
                        apply hne
                        rw [← hp0]
                        simp
                        omega
                      have hwmem : Warning.indexOrder n2 i2 (l.length + 1) ∈ st1.warns := by
                        rw [← hs]
                        simp [hl0, hI]
                      exact ⟨i2, l.length + 1, scan_warns_mono rest st1 st' h _ hwmem⟩
                  | succ t' =>
                      refine ih st1 n2 (c + 1) t' p ?_ (by simpa using hidx2)
                        (by omega) (by omega) st' h
                      right
                      refine ⟨l ++ [v], ?_, by simp [hlen]⟩
                      rw [← hs]
                      show pmLookup (pmInsert st.result n2 (Entry.arr (l ++ [v]))) n2
                        = some (Entry.arr (l ++ [v]))
                      rw [pmLookup_insert, if_pos rfl]
              · have hidx' : (bracketOccs rest name).get? t = some p := by
                  rwa [bracketOccs_cons_other hp hn] at hidx
                rcases scanStep_lookup st k v st1 hs name with
                  ⟨hp2, _, _, _⟩ | ⟨n3, i3, hp2, _, hrest⟩
                · rw [hp] at hp2; exact Option.noConfusion hp2
                · rw [hp] at hp2
                  injection hp2 with hp2
                  injection hp2 with hpa hpb
                  subst hpa
                  refine ih st1 name c t p ?_ hidx' hne hge st' h
                  have hnn : ¬(name = n2) := fun hq => hn hq.symm
                  rcases hent with ⟨hnone, hc⟩ | ⟨l, hl, hlen⟩
                  · rcases hrest with ⟨_, _, hlook⟩ | ⟨l2, _, hlook⟩ <;>
                      exact Or.inl ⟨by rw [hlook, if_neg hnn]; exact hnone, hc⟩
                  · rcases hrest with ⟨_, _, hlook⟩ | ⟨l2, _, hlook⟩ <;>
                      exact Or.inr ⟨l, by rw [hlook, if_neg hnn]; exact hl, hlen⟩

/-- C2 counterexample: an input whose bracket indices for `curve` are not
the contiguous sequence 1..N — the single key `curve[5]` — folds into a
contiguous one-element list with no ConsistencyError signalled at all: the
fold silently reindexes when only the first occurrence's index is off. -/
theorem lone_offset_index_unreported :
    bracketIdxs [("num_curves", Val.int 1), ("curve[5]", Val.str "a")] "curve" = [5]
    ∧ [5] ≠ List.range' 1 1
    ∧ convert_arrays [("num_curves", Val.int 1), ("curve[5]", Val.str "a")]
        = .ok ([("curve", Entry.arr [Val.str "a"])], []) :=
  ⟨by decide, by decide, by decide⟩

/-- C2 amended: whenever a second-or-later bracketed occurrence of a name
carries an index different from its position in the accumulated list, the
fold — when it returns a map — has signalled an index-order
ConsistencyError for that name; only an offset confined to the first
occurrence goes unsignalled. -/
theorem gap_or_reorder_reported (items : List (String × Val)) (name : String)
    (t i : Nat) (ht : 1 ≤ t)
    (hidx : (bracketIdxs items name).get? t = some i) (hne : i ≠ t + 1)
    (m : PMap) (ws : List Warning)
    (hok : convert_arrays items = .ok (m, ws)) :
    ∃ g e, Warning.indexOrder name g e ∈ ws := by
  have hidx' : ∃ p : Nat × Val, (bracketOccs items name).get? t = some p ∧ p.1 = i := by
    unfold bracketIdxs at hidx
    cases hq : (bracketOccs items name).get? t with
    | none => rw [List.get?_map, hq] at hidx; simp at hidx
    | some p =>
        rw [List.get?_map, hq] at hidx
        simp at hidx
        exact ⟨p, rfl, hidx⟩
  obtain ⟨p, hp, hpi⟩ := hidx'
  unfold convert_arrays at hok
  cases hs : scanItems ⟨[], [], []⟩ items with
  | error e2 => rw [hs] at hok; exact Except.noConfusion hok
  | ok st =>
      rw [hs] at hok
      obtain ⟨g, e, hmem⟩ := scan_gap_warns_aux items ⟨[], [], []⟩ name 0 t p
        (Or.inl ⟨rfl, rfl⟩) hp (by omega) (by omega) st hs
      exact ⟨g, e, (finalize_warns st.arrays st.result st.warns m ws hok).1 _ hmem⟩

/-- Witness for the amended C2: `curve[1]` followed by `curve[3]` (skipping
index 2) makes the fold log an index-order warning. -/
theorem gap_or_reorder_reported_witness :
    ∃ g e, Warning.indexOrder "curve" g e
      ∈ [Warning.indexOrder "curve" 3 2] :=
  gap_or_reorder_reported
    [("num_curves", Val.int 2), ("curve[1]", Val.str "a"), ("curve[3]", Val.str "b")]
    "curve" 1 3 (by decide) (by decide) (by decide)
    [("curve", Entry.arr [Val.str "a", Val.str "b"])]
    [Warning.indexOrder "curve" 3 2] (by decide)

/-- A name never equals its own advertised-count sibling key. -/
theorem name_ne_numKey (name : String) : name ≠ numKey name := by
  intro h
  have hl := congrArg String.length h
  have h1 : ("num_" : String).length = 4 := rfl
  have h2 : ("s" : String).length = 1 := rfl
  rw [show numKey name = ("num_" ++ name) ++ "s" from rfl,
    String.length_append, String.length_append, h1, h2] at hl
  omega

/-- Advertised-count sibling keys of distinct names are distinct. -/
theorem numKey_inj {a b : String} (h : numKey a = numKey b) : a = b := by
  have hd := congrArg String.data h
  rw [show numKey a = ("num_" ++ a) ++ "s" from rfl,
    show numKey b = ("num_" ++ b) ++ "s" from rfl,
    String.data_append, String.data_append, String.data_append, String.data_append] at hd
  exact congrArg String.mk (List.append_cancel_left (List.append_cancel_right hd))

/-- Popping never resurrects a key: lookups that were `none` stay `none`. -/
theorem pmPop_lookup_none (m : PMap) (key q : String)
    (h : pmLookup m q = none) : pmLookup (pmPop m key).2 q = none := by
  induction m with
  | nil => rfl
  | cons kv rest ih =>
      obtain ⟨k0, e0⟩ := kv
      simp only [pmLookup] at h
      by_cases hq : k0 = q
      · rw [if_pos hq] at h; exact Option.noConfusion h
      · rw [if_neg hq] at h
        by_cases hk : k0 = key
        · simp [pmPop, hk, h]
        · simp [pmPop, hk, pmLookup, hq, ih h]

/-- The post-scan loop never inserts: absent keys stay absent. -/
theorem finalize_preserves_none (names : List String) :
    ∀ m ws m' ws' q, finalize m names ws = .ok (m', ws') →
      pmLookup m q = none → pmLookup m' q = none := by
  induction names with
  | nil =>
      intro m ws m' ws' q h hnone
      simp only [finalize] at h
      injection h with h
      cases h
      exact hnone
  | cons name rest ih =>
      intro m ws m' ws' q h hnone
      simp only [finalize] at h
      rcases hp : pmPop m (numKey name) with ⟨sib, m1⟩
      rw [hp] at h
      cases hc : (match sib with | none => Except.ok (0 : Int) | some e => pyInt e) with
      | error e => rw [hc] at h; exact Except.noConfusion h
      | ok count =>
          cases hl : (match pmLookup m1 name with
              | none => Except.error () | some e => pyLen e) with
          | error e => rw [hc, hl] at h; exact Except.noConfusion h
          | ok len =>
              simp only [hc, hl] at h
              refine ih m1 _ m' ws' q h ?_
              have := pmPop_lookup_none m (numKey name) q hnone
              rwa [hp] at this

/-- The scan preserves uniqueness of the map's keys. -/
theorem scan_nodup (items : List (String × Val)) :
    ∀ st st', scanItems st items = .ok st' →
      (pmKeys st.result).Nodup → (pmKeys st'.result).Nodup := by
  induction items with
  | nil =>
      intro st st' h hn
      simp only [scanItems] at h
      injection h with h
      subst h
      exact hn
  | cons kv rest ih =>
      intro st st' h hn
      obtain ⟨k, v⟩ := kv
      simp only [scanItems] at h
      cases hs : scanStep st k v with
      | error e => rw [hs] at h; exact Except.noConfusion h
      | ok st1 =>
          simp only [hs] at h
          refine ih st1 st' h ?_
          unfold scanStep at hs
          cases hp : parseArrayKey k with
          | none =>
              simp only [hp] at hs
              injection hs with hs
              rw [← hs]
              exact pmInsert_nodup st.result k (Entry.scalar v) hn
          | some nv =>
              obtain ⟨n2, i2⟩ := nv
              simp only [hp] at hs
              cases he : pmLookup st.result n2 with
              | none =>
                  simp only [he] at hs
                  injection hs with hs
                  rw [← hs]
                  exact pmInsert_nodup st.result n2 (Entry.arr [v]) hn
              | some e =>
                  cases e with
                  | scalar w => simp only [he] at hs; exact Except.noConfusion hs
                  | arr l =>
                      simp only [he] at hs
                      injection hs with hs
                      rw [← hs]
                      exact pmInsert_nodup st.result n2 (Entry.arr (l ++ [v])) hn

/-- The scan keeps every accumulated list nonempty. -/
theorem scan_arr_nonempty (items : List (String × Val)) :
    ∀ st st', scanItems st items = .ok st' →
      (∀ n l, pmLookup st.result n = some (Entry.arr l) → l ≠ []) →
      ∀ n l, pmLookup st'.result n = some (Entry.arr l) → l ≠ [] := by
  induction items with
  | nil =>
      intro st st' h hinv
      simp only [scanItems] at h
      injection h with h
      subst h
      exact hinv
  | cons kv rest ih =>
      intro st st' h hinv
      obtain ⟨k, v⟩ := kv
      simp only [scanItems] at h
      cases hs : scanStep st k v with
      | error e => rw [hs] at h; exact Except.noConfusion h
      | ok st1 =>
          simp only [hs] at h
          refine ih st1 st' h ?_
          intro n l hl
          rcases scanStep_lookup st k v st1 hs n with
            ⟨_, _, _, hlook⟩ | ⟨n2, i2, _, _, hrest⟩
          · rw [hlook] at hl
            by_cases hq : n = k
            · rw [if_pos hq] at hl
              injection hl with hl
              exact Entry.noConfusion hl
            · rw [if_neg hq] at hl
              exact hinv n l hl
          · rcases hrest with ⟨_, _, hlook⟩ | ⟨l2, _, hlook⟩ <;> rw [hlook] at hl
            · by_cases hq : n = n2
              · rw [if_pos hq] at hl
                injection hl with hl
                injection hl with hl
                rw [← hl]
                exact List.cons_ne_nil v []
              · rw [if_neg hq] at hl
                exact hinv n l hl
            · by_cases hq : n = n2
              · rw [if_pos hq] at hl
                injection hl with hl
                injection hl with hl
                rw [← hl]
                exact List.append_ne_nil_of_right_ne_nil l2 (List.cons_ne_nil v [])
              · rw [if_neg hq] at hl
                exact hinv n l hl

/-- Walking the post-scan loop to an accumulated name: its advertised-count
sibling is removed from the final map, and a mismatch between the advertised
count (0 when the sibling is missing) and the accumulated length lands in
the final warning list. -/
theorem finalize_checks (names : List String) :
    ∀ (m : PMap) (ws : List Warning) (m' : PMap) (ws' : List Warning)
      (name : String) (l : List Val),
      finalize m names ws = .ok (m', ws') →
      name ∈ names →
      (pmKeys m).Nodup →
      pmLookup m name = some (Entry.arr l) →
      pmLookup m' (numKey name) = none
      ∧ (pmLookup m (numKey name) = none → (0 : Int) ≠ (l.length : Int) →
          Warning.lengthMismatch name 0 l.length ∈ ws')
      ∧ (∀ e c, pmLookup m (numKey name) = some e → pyInt e = .ok c →
          c ≠ (l.length : Int) → Warning.lengthMismatch name c l.length ∈ ws') := by
  induction names with
  | nil =>
      intro m ws m' ws' name l _ hmem
      exact absurd hmem (List.not_mem_nil name)
  | cons n0 rest ih =>
      intro m ws m' ws' name l h hmem hnodup hent
      simp only [finalize] at h
      rcases hp : pmPop m (numKey n0) with ⟨sib, m1⟩
      rw [hp] at h
      have hsib : sib = pmLookup m (numKey n0) := by
        have hf := pmPop_fst m (numKey n0)
        rw [hp] at hf
        exact hf
      have hm1 : m1 = (pmPop m (numKey n0)).2 := by rw [hp]
      cases hc : (match sib with | none => Except.ok (0 : Int) | some e => pyInt e) with
      | error e => rw [hc] at h; exact Except.noConfusion h
      | ok count =>
          cases hl : (match pmLookup m1 n0 with
              | none => Except.error () | some e => pyLen e) with
          | error e => rw [hc, hl] at h; exact Except.noConfusion h
          | ok len =>
              simp only [hc, hl] at h
              by_cases hname : n0 = name
              · subst hname
                have hent1 : pmLookup m1 n0 = some (Entry.arr l) := by
                  rw [hm1, pmPop_lookup_ne m (numKey n0) n0 (name_ne_numKey n0)]
                  exact hent
                have hlen : len = l.length := by
                  rw [hent1] at hl
                  simp [pyLen] at hl
                  exact hl.symm
                have hnone1 : pmLookup m1 (numKey n0) = none := by
                  rw [hm1]
                  exact pmPop_lookup_eq m (numKey n0) hnodup
                have hgone : pmLookup m' (numKey n0) = none :=
                  finalize_preserves_none rest m1 _ m' ws' (numKey n0) h hnone1
                refine ⟨hgone, ?_, ?_⟩
                · intro hsibnone hne0
                  have hsn : sib = none := by rw [hsib, hsibnone]
                  simp only [hsn] at hc
                  injection hc with hc
                  have hfire : count ≠ (len : Int) := by rw [← hc, hlen]; exact hne0
                  have hmem1 : Warning.lengthMismatch n0 count len ∈
                      (if count ≠ (len : Int) then
                        ws ++ [Warning.lengthMismatch n0 count len] else ws) := by
                    rw [if_pos hfire]; simp
                  have hfin := (finalize_warns rest m1 _ m' ws' h).1 _ hmem1
                  rw [← hc, hlen] at hfin
                  exact hfin
                · intro e c hsibsome hpy hne0
                  have hsn : sib = some e := by rw [hsib, hsibsome]
                  simp only [hsn] at hc
                  rw [hpy] at hc
                  injection hc with hc
                  have hfire : count ≠ (len : Int) := by rw [← hc, hlen]; exact hne0
                  have hmem1 : Warning.lengthMismatch n0 count len ∈
                      (if count ≠ (len : Int) then
                        ws ++ [Warning.lengthMismatch n0 count len] else ws) := by
                    rw [if_pos hfire]; simp
                  have hfin := (finalize_warns rest m1 _ m' ws' h).1 _ hmem1
                  rw [← hc, hlen] at hfin
                  exact hfin
              · have hmem' : name ∈ rest := by
                  rcases List.mem_cons.mp hmem with h0 | h0
                  · exact absurd h0.symm hname
                  · exact h0
                have hname2 : name ≠ numKey n0 := by
                  intro h0
                  have hsn : sib = some (Entry.arr l) := by rw [hsib, ← h0]; exact hent
                  simp only [hsn] at hc
                  simp [pyInt] at hc
                have hent1 : pmLookup m1 name = some (Entry.arr l) := by
                  rw [hm1, pmPop_lookup_ne m (numKey n0) name hname2]
                  exact hent
                have hnodup1 : (pmKeys m1).Nodup := by
                  rw [hm1]; exact pmPop_nodup m (numKey n0) hnodup
                have hnk : numKey name ≠ numKey n0 := fun h0 => hname (numKey_inj h0).symm
                have hsiblookup : pmLookup m1 (numKey name) = pmLookup m (numKey name) := by
                  rw [hm1]; exact pmPop_lookup_ne m (numKey n0) (numKey name) hnk
                obtain ⟨g1, g2, g3⟩ := ih m1 _ m' ws' name l h hmem' hnodup1 hent1
                refine ⟨g1, ?_, ?_⟩
                · intro hs0 hne0
                  exact g2 (by rw [hsiblookup]; exact hs0) hne0
                · intro e c hs0 hpy hne0
                  exact g3 e c (by rw [hsiblookup]; exact hs0) hpy hne0

/-- C3: after the folding scan, for every accumulated array name the fold
checks the sibling scalar key `num_<name>s` against the accumulated list's
length and removes it: the sibling key is absent from the returned map, a
missing sibling is reported (advertised count 0 against a nonempty list),
and a sibling whose integer value differs from the accumulated length is
reported as a length-mismatch ConsistencyError. -/
theorem num_sibling_checked_and_stripped (items : List (String × Val))
    (name : String) (st : FoldSt) (l : List Val) (m : PMap) (ws : List Warning)
    (hscan : scanItems ⟨[], [], []⟩ items = .ok st)
    (hok : convert_arrays items = .ok (m, ws))
    (hmem : name ∈ st.arrays)
    (hent : pmLookup st.result name = some (Entry.arr l)) :
    pmLookup m (numKey name) = none
    ∧ (pmLookup st.result (numKey name) = none →
        Warning.lengthMismatch name 0 l.length ∈ ws)
    ∧ (∀ e c, pmLookup st.result (numKey name) = some e → pyInt e = .ok c →
        c ≠ (l.length : Int) → Warning.lengthMismatch name c l.length ∈ ws) := by
  unfold convert_arrays at hok
  rw [hscan] at hok
  have hnodup : (pmKeys st.result).Nodup :=
    scan_nodup items ⟨[], [], []⟩ st hscan (by simp [pmKeys])
  have hnon : l ≠ [] :=
    scan_arr_nonempty items ⟨[], [], []⟩ st hscan
      (by intro n l0 h0; exact Option.noConfusion h0) name l hent
  obtain ⟨g1, g2, g3⟩ :=
    finalize_checks st.arrays st.result st.warns m ws name l hok hmem hnodup hent
  refine ⟨g1, fun hnone => ?_, g3⟩
  refine g2 hnone ?_
  intro h0
  have hz : l.length = 0 := by exact_mod_cast h0.symm
  exact hnon (List.length_eq_zero.mp hz)

/-- Witness for C3: folding `curve[1]` with `num_curves = 3` strips the
sibling key and logs the advertised-versus-actual length mismatch. -/
theorem num_sibling_checked_witness :
    pmLookup [("curve", Entry.arr [Val.str "a"])] (numKey "curve") = none
    ∧ Warning.lengthMismatch "curve" 3 1 ∈ [Warning.lengthMismatch "curve" 3 1] := by
  have h := num_sibling_checked_and_stripped
    [("curve[1]", Val.str "a"), ("num_curves", Val.int 3)] "curve"
    ⟨[("curve", Entry.arr [Val.str "a"]), ("num_curves", Entry.scalar (Val.int 3))],
      ["curve"], []⟩
    [Val.str "a"]
    [("curve", Entry.arr [Val.str "a"])]
    [Warning.lengthMismatch "curve" 3 1]
    (by decide) (by decide) (by decide) (by decide)
  exact ⟨h.1, h.2.2 (Entry.scalar (Val.int 3)) 3 (by decide) (by decide) (by decide)⟩
